import Mathlib

/-!
Shallow embedding of `sparsity_network/sparsity_model.py` (class `SDFDiffusion`).

Real-valued tensors are modelled over `ℚ`; a flat sparse feature field is a
`List ℚ`, one scalar feature per active octree row.  The collaborators the
source imports from outside this file (`beta_linear_log_snr`,
`alpha_cosine_log_snr`, `log_snr_to_alpha_sigma`, `torch.special.expm1`,
`torch.sqrt`, the `Sparsity_UNetModel` denoising network) are opaque function
parameters, bundled in `DiffusionModel` the way they hang off `self`.  The
randomness drawn by `torch.randn_like` is modelled as explicit noise streams
passed to each operation; a sampler that never draws simply ignores its
stream.
-/

/-- A flat sparse feature field: one scalar feature per active octree row. -/
abbrev FeatureField := List ℚ

/-- Elementwise `torch.clamp(x, lo, hi)`: `min (max x lo) hi`. -/
def clampQ (lo hi x : ℚ) : ℚ := min (max x lo) hi

/-- The two noise-schedule functions the constructor can select.  Their bodies
live in `network/model_utils.py`, outside this file, so they are represented
by tags naming which collaborator was bound to `self.log_snr`. -/
inductive ScheduleFn where
  | betaLinearLogSnr
  | alphaCosineLogSnr
  deriving DecidableEq

/-- The noise-schedule selection performed by `SDFDiffusion.__init__`:
`"linear"` binds `beta_linear_log_snr`, `"cosine"` binds
`alpha_cosine_log_snr`, and any other string raises
`ValueError(f'invalid noise schedule ...')` during construction. -/
def select_log_snr (noise_schedule : String) : Except String ScheduleFn :=
  if noise_schedule = "linear" then Except.ok ScheduleFn.betaLinearLogSnr
  else if noise_schedule = "cosine" then Except.ok ScheduleFn.alphaCosineLogSnr
  else Except.error ("invalid noise schedule " ++ noise_schedule)

/-- The opaque collaborators of `SDFDiffusion`, as they hang off `self`:
the selected schedule `self.log_snr`, `log_snr_to_alpha_sigma`,
`torch.special.expm1`, `torch.sqrt`, and the denoising network
`self.denoise_fn` (which takes the noisy field and a per-batch-element
noise-level family; sampling passes the one scalar broadcast). -/
structure DiffusionModel where
  log_snr : ℚ → ℚ
  alpha_sigma : ℚ → ℚ × ℚ
  expm1 : ℚ → ℚ
  sqrt : ℚ → ℚ
  denoise_fn : FeatureField → (ℕ → ℚ) → FeatureField

/-- `torch.linspace(1., 0., steps + 1)`: the `steps + 1` evenly spaced times
from `1` down to `0`. -/
def sampling_times (steps : ℕ) : List ℚ :=
  (List.range (steps + 1)).map (fun k : ℕ => 1 - (k : ℚ) / (steps : ℚ))

/-- `SDFDiffusion.get_sampling_timesteps` (with the trivial batch dimension of
size 1 dropped): pair each time with its successor, `times[:-1]` zipped with
`times[1:]`. -/
def get_sampling_timesteps (steps : ℕ) : List (ℚ × ℚ) :=
  (sampling_times steps).zip (sampling_times steps).tail

/-- One iteration of the loop in `SDFDiffusion.ddpm_sample`, for the time pair
`(time, time_next)`; `randn` is the fresh draw standing for
`torch.randn_like(noise_feature)` at this step. -/
def ddpm_step (M : DiffusionModel) (truncated_index : ℚ) (randn : FeatureField)
    (noise_feature : FeatureField) (time time_next : ℚ) : FeatureField :=
  let log_snr := M.log_snr time
  let log_snr_next := M.log_snr time_next
  let alpha := (M.alpha_sigma log_snr).1
  let alpha_next := (M.alpha_sigma log_snr_next).1
  let sigma_next := (M.alpha_sigma log_snr_next).2
  let x_start := (M.denoise_fn noise_feature (fun _ => log_snr)).map (clampQ (-1) 1)
  let c := -(M.expm1 (log_snr - log_snr_next))
  let mean := List.zipWith
    (fun xf xs => alpha_next * (xf * (1 - c) / alpha + c * xs)) noise_feature x_start
  let variance := sigma_next ^ 2 * c
  if time_next > truncated_index then
    List.zipWith (fun m n => m + M.sqrt variance * n) mean randn
  else
    mean

/-- `SDFDiffusion.ddpm_sample`: fold the step over the time pairs, drawing the
step's noise from the stream `randns` (one fresh field per iteration). -/
def ddpm_sample (M : DiffusionModel) (noise_feature : FeatureField) (steps : ℕ)
    (truncated_index : ℚ) (randns : ℕ → FeatureField) : FeatureField :=
  ((get_sampling_timesteps steps).enum).foldl
    (fun cur kp => ddpm_step M truncated_index (randns kp.1) cur kp.2.1 kp.2.2)
    noise_feature

/-- One iteration of the loop in `SDFDiffusion.ddim_sample`, for the time pair
`(time, time_next)`.  `sigma.clamp(min=1e-8)` is `max sigma (1 / 10 ^ 8)`. -/
def ddim_step (M : DiffusionModel) (noise_feature : FeatureField)
    (time time_next : ℚ) : FeatureField :=
  let log_snr := M.log_snr time
  let log_snr_next := M.log_snr time_next
  let alpha := (M.alpha_sigma log_snr).1
  let sigma := (M.alpha_sigma log_snr).2
  let alpha_next := (M.alpha_sigma log_snr_next).1
  let sigma_next := (M.alpha_sigma log_snr_next).2
  let x_start := (M.denoise_fn noise_feature (fun _ => log_snr)).map (clampQ (-1) 1)
  let pred_noise := List.zipWith
    (fun xf xs => (xf - alpha * xs) / max sigma (1 / 10 ^ 8)) noise_feature x_start
  List.zipWith (fun xs pn => xs * alpha_next + pn * sigma_next) x_start pred_noise

/-- `SDFDiffusion.ddim_sample`: fold the deterministic step over the time
pairs.  The signature keeps `truncated_index` and the ambient noise stream
`randns` (the RNG every sampler has access to) for parity with
`ddpm_sample`, exactly as the source method keeps an unread
`truncated_index` parameter and never calls `torch.randn_like`. -/
def ddim_sample (M : DiffusionModel) (noise_feature : FeatureField) (steps : ℕ)
    (truncated_index : ℚ) (randns : ℕ → FeatureField) : FeatureField :=
  (get_sampling_timesteps steps).foldl
    (fun cur p => ddim_step M cur p.1 p.2) noise_feature

/-- `SDFDiffusion.sample`: draw `noise_feature = torch.randn_like(data)` (the
stream `init_noise` read at `data`'s shape — of `data` itself only the length
is used), then dispatch on `use_ddim`. -/
def sample (M : DiffusionModel) (data : FeatureField) (use_ddim : Bool) (steps : ℕ)
    (truncated_index : ℚ) (init_noise : ℕ → ℚ) (randns : ℕ → FeatureField) : FeatureField :=
  let noise_feature := (List.range data.length).map init_noise
  if use_ddim then ddim_sample M noise_feature steps truncated_index randns
  else ddpm_sample M noise_feature steps truncated_index randns

/-- Boolean-mask row selection `xs[batch_id == i]`: the rows of `xs` whose
batch id is `i`, in their original relative order. -/
def mask_index (xs : List ℚ) (batch_id : List ℕ) (i : ℕ) : List ℚ :=
  ((batch_id.zip xs).filter (fun p => p.1 == i)).map Prod.snd

/-- The forward-corruption loop of `SDFDiffusion.training_loss`: for each
batch element `i`, take its rows by mask, mix with that element's
`(alpha, sigma)`, add `sigma * randn_like(feature)` (`noises i j` is the
fresh draw for row `j` of element `i`'s block), then `torch.cat` the blocks. -/
def forward_corrupt (alpha_sigma : ℚ → ℚ × ℚ) (noise_level : ℕ → ℚ)
    (noises : ℕ → ℕ → ℚ) (batch_size : ℕ) (batch_id : List ℕ)
    (x_start : FeatureField) : FeatureField :=
  ((List.range batch_size).map (fun i =>
    let feature := mask_index x_start batch_id i
    let alpha := (alpha_sigma (noise_level i)).1
    let sigma := (alpha_sigma (noise_level i)).2
    feature.mapIdx (fun j x => x * alpha + sigma * noises i j))).flatten

/-- `torch.Tensor.mean()` of a flat tensor: sum over element count. -/
def list_mean (l : List ℚ) : ℚ := l.sum / l.length

/-- `SDFDiffusion.training_loss`: corrupt `x_start` per batch element at that
element's sampled time (`times i` stands for the uniform draw), run the
denoising network, square the error against `x_start`, and reduce to one mean
per batch element by the same mask. -/
def training_loss (M : DiffusionModel) (times : ℕ → ℚ) (noises : ℕ → ℕ → ℚ)
    (batch_size : ℕ) (batch_id : List ℕ) (x_start : FeatureField) : List ℚ :=
  let noise_level := fun i => M.log_snr (times i)
  let x_t := forward_corrupt M.alpha_sigma noise_level noises batch_size batch_id x_start
  let pred := M.denoise_fn x_t noise_level
  let sdf_loss := List.zipWith (fun p x => (p - x) ^ 2) pred x_start
  (List.range batch_size).map (fun i => list_mean (mask_index sdf_loss batch_id i))

/-- A concrete instantiation of the opaque collaborators, used to witness the
theorems below on closed inputs: identity schedule and transcendentals, an
`alpha_sigma` returning the log-SNR in both slots, and a denoising network
that echoes its input field. -/
def Mex : DiffusionModel :=
  DiffusionModel.mk id (fun l => (l, l)) id id (fun f _ => f)

/-- Claim C8: constructing the model with `noise_schedule = "linear"` selects
the linear log-SNR function, `"cosine"` selects the cosine log-SNR function,
and any other string fails construction immediately with a configuration
error (the construction-time selection is `select_log_snr`). -/
theorem select_log_snr_spec :
    select_log_snr "linear" = Except.ok ScheduleFn.betaLinearLogSnr ∧
    select_log_snr "cosine" = Except.ok ScheduleFn.alphaCosineLogSnr ∧
    ∀ s : String, s ≠ "linear" → s ≠ "cosine" →
      select_log_snr s = Except.error ("invalid noise schedule " ++ s) := by
  refine ⟨rfl, rfl, ?_⟩
  intro s h1 h2
  simp [select_log_snr, h1, h2]

/-- Witness for C8 at the concrete unrecognized string `"quadratic"`. -/
theorem select_log_snr_spec_witness :
    (("quadratic" : String) ≠ "linear" ∧ ("quadratic" : String) ≠ "cosine") ∧
    select_log_snr "quadratic" =
      Except.error ("invalid noise schedule " ++ "quadratic") :=
  ⟨⟨by decide, by decide⟩,
    select_log_snr_spec.2.2 "quadratic" (by decide) (by decide)⟩

/-- Claim C3: the DDIM sampler is deterministic — its result does not depend
on the ambient randomness stream at all, so two runs from the same initial
noise field, octree-conditioned network, and step count coincide. -/
theorem ddim_sample_deterministic (M : DiffusionModel)
    (noise_feature : FeatureField) (steps : ℕ) (truncated_index : ℚ)
    (randns₁ randns₂ : ℕ → FeatureField) :
    ddim_sample M noise_feature steps truncated_index randns₁ =
      ddim_sample M noise_feature steps truncated_index randns₂ := rfl

/-- Claim C10: `ddim_sample` accepts `truncated_index` but never reads it, so
its output is identical for any two values of that parameter. -/
theorem ddim_sample_truncated_index_independent (M : DiffusionModel)
    (noise_feature : FeatureField) (steps : ℕ) (t₁ t₂ : ℚ)
    (randns : ℕ → FeatureField) :
    ddim_sample M noise_feature steps t₁ randns =
      ddim_sample M noise_feature steps t₂ randns := rfl

/-- Claim C9: `sample` draws an initial noise field of `data`'s length,
dispatches to `ddpm_sample` when `use_ddim` is false and to `ddim_sample`
when it is true (forwarding steps and truncation index), and depends on the
reference field only through its length. -/
theorem sample_spec (M : DiffusionModel) (data : FeatureField) (steps : ℕ)
    (truncated_index : ℚ) (init_noise : ℕ → ℚ) (randns : ℕ → FeatureField) :
    ((List.range data.length).map init_noise).length = data.length ∧
    sample M data false steps truncated_index init_noise randns =
      ddpm_sample M ((List.range data.length).map init_noise) steps
        truncated_index randns ∧
    sample M data true steps truncated_index init_noise randns =
      ddim_sample M ((List.range data.length).map init_noise) steps
        truncated_index randns ∧
    ∀ data' : FeatureField, data'.length = data.length → ∀ b : Bool,
      sample M data' b steps truncated_index init_noise randns =
        sample M data b steps truncated_index init_noise randns := by
  refine ⟨by simp, rfl, rfl, ?_⟩
  intro data' h b
  simp only [sample, h]

/-- Witness for C9: two distinct one-row reference fields of equal length
give the same sample. -/
theorem sample_spec_witness :
    ([(7 : ℚ)].length = [(5 : ℚ)].length) ∧
    sample Mex [7] true 1 0 (fun _ => 0) (fun _ => []) =
      sample Mex [5] true 1 0 (fun _ => 0) (fun _ => []) :=
  ⟨rfl, (sample_spec Mex [5] 1 0 (fun _ => 0) (fun _ => [])).2.2.2 [7] rfl true⟩

/-- Closed form of the time-pair schedule: the `k`-th pair is
`(1 - k/N, 1 - (k+1)/N)`. -/
theorem get_sampling_timesteps_eq (N : ℕ) :
    get_sampling_timesteps N =
      (List.range N).map
        (fun k : ℕ => ((1 : ℚ) - (k : ℚ) / N, (1 : ℚ) - ((k : ℚ) + 1) / N)) := by
  apply List.ext_getElem
  · simp [get_sampling_timesteps, sampling_times]
  · intro i h1 h2
    simp only [get_sampling_timesteps] at h1 ⊢
    rw [List.getElem_zip, List.getElem_tail]
    simp only [sampling_times, List.getElem_map, List.getElem_range]
    push_cast
    norm_num

/-- Claim C7: for positive `N`, the scheduler builds `N + 1` evenly spaced
times from 1 down to 0 and pairs consecutive entries: exactly `N` pairs, the
`k`-th being `(1 - k/N, 1 - (k+1)/N)`; the first pair's time is 1, the last
pair's next time is 0, and times strictly decrease within each pair and
across the sequence. -/
theorem get_sampling_timesteps_spec (N : ℕ) (hN : 0 < N) :
    (get_sampling_timesteps N).length = N ∧
    (∀ k, k < N → (get_sampling_timesteps N).getD k (0, 0) =
      ((1 : ℚ) - (k : ℚ) / N, (1 : ℚ) - ((k : ℚ) + 1) / N)) ∧
    ((get_sampling_timesteps N).getD 0 (0, 0)).1 = 1 ∧
    ((get_sampling_timesteps N).getD (N - 1) (0, 0)).2 = 0 ∧
    (∀ k, k < N → ((get_sampling_timesteps N).getD k (0, 0)).2 <
      ((get_sampling_timesteps N).getD k (0, 0)).1) ∧
    (∀ k l, k < l → l < N → ((get_sampling_timesteps N).getD l (0, 0)).1 <
      ((get_sampling_timesteps N).getD k (0, 0)).1) := by
  have hlen : (get_sampling_timesteps N).length = N := by
    rw [get_sampling_timesteps_eq]; simp
  have hNQ : (0 : ℚ) < (N : ℚ) := by exact_mod_cast hN
  have hpt : ∀ k, k < N → (get_sampling_timesteps N).getD k (0, 0) =
      ((1 : ℚ) - (k : ℚ) / N, (1 : ℚ) - ((k : ℚ) + 1) / N) := by
    intro k hk
    rw [get_sampling_timesteps_eq]
    rw [List.getD_eq_getElem _ _ (by simpa using hk)]
    simp only [List.getElem_map, List.getElem_range]
  refine ⟨hlen, hpt, ?_, ?_, ?_, ?_⟩
  · rw [hpt 0 hN]; norm_num
  · rw [hpt (N - 1) (by omega)]
    have hc : ((N - 1 : ℕ) : ℚ) = (N : ℚ) - 1 := by
      have h1 : (1 : ℕ) ≤ N := hN
      push_cast [h1]
      ring
    simp only [hc]
    field_simp
  · intro k hk
    rw [hpt k hk]
    have : (k : ℚ) / N < ((k : ℚ) + 1) / N := by gcongr; linarith
    simpa using by linarith
  · intro k l hkl hl
    rw [hpt k (lt_trans hkl hl), hpt l hl]
    have hq : (k : ℚ) < (l : ℚ) := by exact_mod_cast hkl
    have : (k : ℚ) / N < (l : ℚ) / N := by gcongr
    simpa using by linarith

/-- Witness for C7 at `N = 2`: two pairs, endpoints 1 and 0, decreasing. -/
theorem get_sampling_timesteps_spec_witness :
    0 < 2 ∧ (get_sampling_timesteps 2).length = 2 ∧
    ((get_sampling_timesteps 2).getD 0 (0, 0)).1 = 1 ∧
    ((get_sampling_timesteps 2).getD (2 - 1) (0, 0)).2 = 0 ∧
    ((get_sampling_timesteps 2).getD 1 (0, 0)).1 <
      ((get_sampling_timesteps 2).getD 0 (0, 0)).1 :=
  ⟨by decide, (get_sampling_timesteps_spec 2 (by decide)).1,
    (get_sampling_timesteps_spec 2 (by decide)).2.2.1,
    (get_sampling_timesteps_spec 2 (by decide)).2.2.2.1,
    (get_sampling_timesteps_spec 2 (by decide)).2.2.2.2.2 0 1 (by decide)
      (by decide)⟩

/-- `getD` through `zipWith`, inside the common length range. -/
theorem getD_zipWith (f : ℚ → ℚ → ℚ) (l₁ l₂ : List ℚ) (j : ℕ)
    (h₁ : j < l₁.length) (h₂ : j < l₂.length) :
    (List.zipWith f l₁ l₂).getD j 0 = f (l₁.getD j 0) (l₂.getD j 0) := by
  rw [List.getD_eq_getElem _ _ (by rw [List.length_zipWith]; omega),
    List.getD_eq_getElem _ _ h₁, List.getD_eq_getElem _ _ h₂,
    List.getElem_zipWith]

/-- `getD` through `map`, inside range. -/
theorem getD_map (f : ℚ → ℚ) (l : List ℚ) (j : ℕ) (h : j < l.length) :
    (l.map f).getD j 0 = f (l.getD j 0) := by
  rw [List.getD_eq_getElem _ _ (by simpa using h),
    List.getD_eq_getElem _ _ h, List.getElem_map]

/-- Claim C1: row `j` of a DDPM step.  With `x_start` the denoiser output
clamped to `[-1, 1]` and `c = -expm1(log_snr - log_snr_next)`, the update is
built from the posterior mean
`alpha_next * (field * (1 - c) / alpha + c * x_start)` and posterior variance
`sigma_next ^ 2 * c`, with `(alpha, sigma)` pairs derived from the log-SNR at
`time` and `time_next` respectively. -/
theorem ddpm_step_formula (M : DiffusionModel) (truncated_index : ℚ)
    (randn noise_feature : FeatureField) (time time_next : ℚ) (j : ℕ)
    (hd : (M.denoise_fn noise_feature (fun _ => M.log_snr time)).length =
      noise_feature.length)
    (hr : randn.length = noise_feature.length)
    (hj : j < noise_feature.length) :
    (ddpm_step M truncated_index randn noise_feature time time_next).getD j 0 =
      (let log_snr := M.log_snr time
       let log_snr_next := M.log_snr time_next
       let alpha := (M.alpha_sigma log_snr).1
       let alpha_next := (M.alpha_sigma log_snr_next).1
       let sigma_next := (M.alpha_sigma log_snr_next).2
       let xs_j := clampQ (-1) 1
         ((M.denoise_fn noise_feature (fun _ => log_snr)).getD j 0)
       let c := -(M.expm1 (log_snr - log_snr_next))
       let mean_j :=
         alpha_next * (noise_feature.getD j 0 * (1 - c) / alpha + c * xs_j)
       let variance := sigma_next ^ 2 * c
       if time_next > truncated_index then
         mean_j + M.sqrt variance * randn.getD j 0
       else mean_j) := by
  have hxs : ((M.denoise_fn noise_feature (fun _ => M.log_snr time)).map
      (clampQ (-1) 1)).length = noise_feature.length := by
    rw [List.length_map, hd]
  by_cases hc : time_next > truncated_index
  · simp only [ddpm_step, hc, if_true]
    rw [getD_zipWith _ _ _ _ (by rw [List.length_zipWith, hxs]; omega)
        (by omega),
      getD_zipWith _ _ _ _ hj (by omega), getD_map _ _ _ (by omega)]
  · simp only [ddpm_step, hc, if_false]
    rw [getD_zipWith _ _ _ _ hj (by omega), getD_map _ _ _ (by omega)]

/-- Witness for C1 on a one-row field with concrete collaborators, at the
truncated branch (`time_next = 0 ≤ truncated_index`). -/
theorem ddpm_step_formula_witness :
    ((Mex.denoise_fn [2] (fun _ => Mex.log_snr 1)).length =
        [(2 : ℚ)].length ∧
      [(3 : ℚ)].length = [(2 : ℚ)].length ∧ 0 < [(2 : ℚ)].length) ∧
    (ddpm_step Mex 0 [3] [2] 1 0).getD 0 0 =
      (let log_snr := Mex.log_snr 1
       let log_snr_next := Mex.log_snr 0
       let alpha := (Mex.alpha_sigma log_snr).1
       let alpha_next := (Mex.alpha_sigma log_snr_next).1
       let sigma_next := (Mex.alpha_sigma log_snr_next).2
       let xs_j := clampQ (-1) 1
         ((Mex.denoise_fn [2] (fun _ => log_snr)).getD 0 0)
       let c := -(Mex.expm1 (log_snr - log_snr_next))
       let mean_j :=
         alpha_next * (([(2 : ℚ)]).getD 0 0 * (1 - c) / alpha + c * xs_j)
       let variance := sigma_next ^ 2 * c
       if (0 : ℚ) > 0 then
         mean_j + Mex.sqrt variance * ([(3 : ℚ)]).getD 0 0
       else mean_j) :=
  ⟨⟨rfl, rfl, by decide⟩,
    ddpm_step_formula Mex 0 [3] [2] 1 0 0 rfl rfl (by decide)⟩

/-- Claim C4: row `j` of a DDIM step.  The divisor of `pred_noise` is
`max sigma 1e-8`, strictly positive whatever the schedule produced, and the
next field is `x_start * alpha_next + pred_noise * sigma_next` with
`pred_noise = (field - alpha * x_start) / max sigma 1e-8`. -/
theorem ddim_step_formula (M : DiffusionModel) (noise_feature : FeatureField)
    (time time_next : ℚ) (j : ℕ)
    (hd : (M.denoise_fn noise_feature (fun _ => M.log_snr time)).length =
      noise_feature.length)
    (hj : j < noise_feature.length) :
    0 < max (M.alpha_sigma (M.log_snr time)).2 ((1 : ℚ) / 10 ^ 8) ∧
    (ddim_step M noise_feature time time_next).getD j 0 =
      (let log_snr := M.log_snr time
       let alpha := (M.alpha_sigma log_snr).1
       let sigma := (M.alpha_sigma log_snr).2
       let alpha_next := (M.alpha_sigma (M.log_snr time_next)).1
       let sigma_next := (M.alpha_sigma (M.log_snr time_next)).2
       let xs_j := clampQ (-1) 1
         ((M.denoise_fn noise_feature (fun _ => log_snr)).getD j 0)
       let pred_noise_j :=
         (noise_feature.getD j 0 - alpha * xs_j) / max sigma (1 / 10 ^ 8)
       xs_j * alpha_next + pred_noise_j * sigma_next) := by
  have hxs : ((M.denoise_fn noise_feature (fun _ => M.log_snr time)).map
      (clampQ (-1) 1)).length = noise_feature.length := by
    rw [List.length_map, hd]
  constructor
  · exact lt_of_lt_of_le (by norm_num) (le_max_right _ _)
  · simp only [ddim_step]
    rw [getD_zipWith _ _ _ _ (by omega)
        (by rw [List.length_zipWith]; omega),
      getD_zipWith _ _ _ _ hj (by omega), getD_map _ _ _ (by omega)]

/-- Witness for C4 on a one-row field with concrete collaborators. -/
theorem ddim_step_formula_witness :
    ((Mex.denoise_fn [2] (fun _ => Mex.log_snr 1)).length =
        [(2 : ℚ)].length ∧ 0 < [(2 : ℚ)].length) ∧
    0 < max (Mex.alpha_sigma (Mex.log_snr 1)).2 ((1 : ℚ) / 10 ^ 8) ∧
    (ddim_step Mex [2] 1 0).getD 0 0 =
      (let log_snr := Mex.log_snr 1
       let alpha := (Mex.alpha_sigma log_snr).1
       let sigma := (Mex.alpha_sigma log_snr).2
       let alpha_next := (Mex.alpha_sigma (Mex.log_snr 0)).1
       let sigma_next := (Mex.alpha_sigma (Mex.log_snr 0)).2
       let xs_j := clampQ (-1) 1
         ((Mex.denoise_fn [2] (fun _ => log_snr)).getD 0 0)
       let pred_noise_j :=
         (([(2 : ℚ)]).getD 0 0 - alpha * xs_j) / max sigma (1 / 10 ^ 8)
       xs_j * alpha_next + pred_noise_j * sigma_next) :=
  ⟨⟨rfl, by decide⟩, ddim_step_formula Mex [2] 1 0 0 rfl (by decide)⟩

/-- Claim C2: when `time_next ≤ truncated_index` the DDPM step is the bare
posterior mean — the drawn noise never enters the result — and when
`time_next > truncated_index` the step adds `sqrt variance * noise` on top of
that mean (the mean being the same step evaluated with truncation raised to
`time_next`, whose condition is false). -/
theorem ddpm_step_truncation (M : DiffusionModel) (truncated_index : ℚ)
    (randn noise_feature : FeatureField) (time time_next : ℚ) :
    (time_next ≤ truncated_index →
      ∀ r₁ r₂ : FeatureField,
        ddpm_step M truncated_index r₁ noise_feature time time_next =
          ddpm_step M truncated_index r₂ noise_feature time time_next) ∧
    (time_next > truncated_index →
      ddpm_step M truncated_index randn noise_feature time time_next =
        List.zipWith
          (fun m n => m +
            M.sqrt ((M.alpha_sigma (M.log_snr time_next)).2 ^ 2 *
              -(M.expm1 (M.log_snr time - M.log_snr time_next))) * n)
          (ddpm_step M time_next randn noise_feature time time_next)
          randn) := by
  constructor
  · intro h r₁ r₂
    simp only [ddpm_step, if_neg (not_lt.mpr h)]
  · intro h
    simp only [ddpm_step, if_pos h, if_neg (lt_irrefl time_next)]

/-- Witness for C2: both branches at concrete inputs — `time_next = 0` at
truncation index 0 injects no noise, `time_next = 1` above index 0 adds the
scaled noise to the mean. -/
theorem ddpm_step_truncation_witness :
    ((0 : ℚ) ≤ 0 ∧
      ddpm_step Mex 0 [5] [2] 1 0 = ddpm_step Mex 0 [7] [2] 1 0) ∧
    ((1 : ℚ) > 0 ∧
      ddpm_step Mex 0 [3] [2] 1 1 =
        List.zipWith
          (fun m n => m +
            Mex.sqrt ((Mex.alpha_sigma (Mex.log_snr 1)).2 ^ 2 *
              -(Mex.expm1 (Mex.log_snr 1 - Mex.log_snr 1))) * n)
          (ddpm_step Mex 1 [3] [2] 1 1) [3]) :=
  ⟨⟨le_refl 0,
      (ddpm_step_truncation Mex 0 [5] [2] 1 0).1 (le_refl 0) [5] [7]⟩,
    ⟨by norm_num,
      (ddpm_step_truncation Mex 0 [3] [2] 1 1).2 (by norm_num)⟩⟩

/-- `mask_index` on a cons: keep the head row iff its batch id matches. -/
theorem mask_index_cons (x : ℚ) (xs : List ℚ) (b : ℕ) (bid : List ℕ)
    (i : ℕ) :
    mask_index (x :: xs) (b :: bid) i =
      if b = i then x :: mask_index xs bid i else mask_index xs bid i := by
  by_cases h : b = i <;> simp [mask_index, List.filter_cons, h]

/-- An id occurring in no row selects nothing. -/
theorem mask_index_of_not_mem (xs : List ℚ) (bid : List ℕ) (i : ℕ)
    (h : i ∉ bid) : mask_index xs bid i = [] := by
  induction bid generalizing xs with
  | nil => simp [mask_index]
  | cons b bid ih =>
    cases xs with
    | nil => simp [mask_index]
    | cons x xs =>
      rw [mask_index_cons,
        if_neg (by rintro rfl; exact h (List.mem_cons_self _ _))]
      exact ih xs (fun hm => h (List.mem_cons_of_mem _ hm))

/-- A mask block has as many rows as its id occurs in `batch_id`. -/
theorem length_mask_index (bid : List ℕ) (xs : List ℚ) (i : ℕ)
    (h : bid.length = xs.length) :
    (mask_index xs bid i).length = bid.count i := by
  induction bid generalizing xs with
  | nil => simp [mask_index]
  | cons b bid ih =>
    cases xs with
    | nil => simp at h
    | cons x xs =>
      rw [mask_index_cons, List.count_cons]
      by_cases hbi : b = i
      · rw [if_pos hbi, List.length_cons, ih xs (by simpa using h)]
        simp [hbi]
      · rw [if_neg hbi, ih xs (by simpa using h)]
        simp [hbi]

/-- Σ over `range B` of an indicator at `b < B` is 1. -/
theorem sum_indicator_range (b B : ℕ) (hb : b < B) :
    ((List.range B).map (fun i => if b = i then (1 : ℕ) else 0)).sum = 1 := by
  induction B with
  | zero => omega
  | succ B ih =>
    rw [List.range_succ, List.map_append, List.sum_append]
    by_cases h : b = B
    · subst h
      have h0 : ((List.range b).map
          (fun i => if b = i then (1 : ℕ) else 0)).sum = 0 := by
        apply List.sum_eq_zero
        intro m hm
        obtain ⟨i, hi, rfl⟩ := List.mem_map.mp hm
        have hib : i < b := List.mem_range.mp hi
        simp [Nat.ne_of_gt hib]
      simp [h0]
    · have hbB : b < B := by omega
      simp [ih hbB, h]

/-- Every id below `B`: the per-id occurrence counts add up to all rows. -/
theorem sum_count_range (bid : List ℕ) (B : ℕ) (hb : ∀ b ∈ bid, b < B) :
    ((List.range B).map (fun i => bid.count i)).sum = bid.length := by
  induction bid with
  | nil => simp
  | cons b bid ih =>
    have hbB : b < B := hb b (List.mem_cons_self _ _)
    have hb' : ∀ x ∈ bid, x < B := fun x hx => hb x (List.mem_cons_of_mem _ hx)
    simp only [List.count_cons, beq_iff_eq]
    rw [List.sum_map_add, sum_indicator_range b B hbB, ih hb']
    simp

/-- Length of a flattened family of blocks given their individual lengths. -/
theorem length_flatten_map_blocks (F : ℕ → List ℚ) (B : ℕ) (cnt : ℕ → ℕ)
    (h : ∀ i, (F i).length = cnt i) :
    (((List.range B).map F).flatten).length = ((List.range B).map cnt).sum := by
  rw [List.length_flatten, List.map_map]
  congr 1
  apply List.map_congr_left
  intro i _
  exact h i

/-- Claim C5 (count part, no contiguity needed): corruption preserves the row
count whenever every batch id is in range. -/
theorem length_forward_corrupt (as : ℚ → ℚ × ℚ) (nl : ℕ → ℚ)
    (ν : ℕ → ℕ → ℚ) (B : ℕ) (bid : List ℕ) (xs : FeatureField)
    (hlen : bid.length = xs.length) (hb : ∀ b ∈ bid, b < B) :
    (forward_corrupt as nl ν B bid xs).length = xs.length := by
  simp only [forward_corrupt]
  rw [length_flatten_map_blocks _ B (fun i => bid.count i) (fun i => by
    simp [length_mask_index bid xs i hlen])]
  rw [sum_count_range bid B hb, hlen]

/-- Splitting the flattened blocks at id `b` when every earlier block is
empty. -/
theorem flatten_map_range_split (F : ℕ → List ℚ) (b B : ℕ) (hbB : b < B)
    (hnil : ∀ i, i < b → F i = []) :
    ((List.range B).map F).flatten =
      F b ++ ((List.range (B - b - 1)).map (fun m => F (b + (m + 1)))).flatten := by
  obtain ⟨k, rfl⟩ : ∃ k, B = b + (k + 1) := ⟨B - b - 1, by omega⟩
  have hk : b + (k + 1) - b - 1 = k := by omega
  rw [hk, List.range_add, List.map_append, List.flatten_append]
  have h1 : ((List.range b).map F).flatten = [] :=
    List.flatten_eq_nil_iff.mpr (by
      intro l hl
      obtain ⟨i, hi, rfl⟩ := List.mem_map.mp hl
      exact hnil i (List.mem_range.mp hi))
  rw [h1, List.nil_append, List.map_map, List.range_succ_eq_map,
    List.map_cons, List.flatten_cons]
  simp [Function.comp_def, List.map_map]

/-- Corruption peels off the first row when its id is minimal among the batch
ids: the head row is noised with its own element's coefficients at stream
position 0, and the rest is the corruption of the tail with that element's
stream shifted by one. -/
theorem forward_corrupt_cons (as : ℚ → ℚ × ℚ) (nl : ℕ → ℚ) (ν : ℕ → ℕ → ℚ)
    (B b : ℕ) (bid : List ℕ) (x : ℚ) (xs : FeatureField)
    (hbB : b < B) (hmin : ∀ y ∈ bid, b ≤ y) :
    forward_corrupt as nl ν B (b :: bid) (x :: xs) =
      (x * (as (nl b)).1 + (as (nl b)).2 * ν b 0) ::
        forward_corrupt as nl
          (fun i j => if i = b then ν i (j + 1) else ν i j) B bid xs := by
  simp only [forward_corrupt]
  have hn1 : ∀ i, i < b →
      ((mask_index (x :: xs) (b :: bid) i).mapIdx
        (fun j y => y * (as (nl i)).1 + (as (nl i)).2 * ν i j)) = [] := by
    intro i hi
    rw [mask_index_cons, if_neg (by omega),
      mask_index_of_not_mem _ _ _ (fun hmem => by
        have := hmin i hmem; omega)]
    simp
  have hn2 : ∀ i, i < b →
      ((mask_index xs bid i).mapIdx
        (fun j y => y * (as (nl i)).1 + (as (nl i)).2 *
          (if i = b then ν i (j + 1) else ν i j))) = [] := by
    intro i hi
    rw [mask_index_of_not_mem _ _ _ (fun hmem => by
      have := hmin i hmem; omega)]
    simp
  rw [flatten_map_range_split
      (fun i => (mask_index (x :: xs) (b :: bid) i).mapIdx
        (fun j y => y * (as (nl i)).1 + (as (nl i)).2 * ν i j))
      b B hbB hn1,
    flatten_map_range_split
      (fun i => (mask_index xs bid i).mapIdx
        (fun j y => y * (as (nl i)).1 + (as (nl i)).2 *
          (if i = b then ν i (j + 1) else ν i j)))
      b B hbB hn2]
  rw [mask_index_cons, if_pos rfl, List.mapIdx_cons, List.cons_append]
  refine congrArg₂ List.cons (by simp) (congrArg₂ HAppend.hAppend ?_ ?_)
  · refine congrArg₂ List.mapIdx ?_ rfl
    funext j y
    simp
  · apply congrArg List.flatten
    apply List.map_congr_left
    intro m _
    have hne1 : ¬ (b = b + (m + 1)) := by omega
    have hne2 : ¬ (b + (m + 1) = b) := by omega
    rw [mask_index_cons, if_neg hne1]
    simp [hne2]

/-- Positional form of sorted corruption: when the batch ids are
non-decreasing, row `p` of the corrupted field is row `p` of `x_start` mixed
with its own element's coefficients (proved by peeling rows with
`forward_corrupt_cons`, re-indexing the noise stream at each peel). -/
theorem forward_corrupt_getD_sorted (as : ℚ → ℚ × ℚ) (nl : ℕ → ℚ) (B : ℕ) :
    ∀ (bid : List ℕ) (xs : FeatureField) (ν : ℕ → ℕ → ℚ),
      bid.length = xs.length → (∀ b ∈ bid, b < B) →
      List.Sorted (· ≤ ·) bid →
      ∀ p, p < xs.length →
        (forward_corrupt as nl ν B bid xs).getD p 0 =
          xs.getD p 0 * (as (nl (bid.getD p 0))).1 +
          (as (nl (bid.getD p 0))).2 *
            ν (bid.getD p 0) ((bid.take p).count (bid.getD p 0)) := by
  intro bid
  induction bid with
  | nil =>
    intro xs ν hlen _ _ p hp
    rw [List.length_nil] at hlen
    omega
  | cons b bid ih =>
    intro xs ν hlen hb hsorted p hp
    cases xs with
    | nil => simp at hp
    | cons x xs =>
      have hbB : b < B := hb b (List.mem_cons_self _ _)
      have hmin : ∀ y ∈ bid, b ≤ y := (List.sorted_cons.mp hsorted).1
      rw [forward_corrupt_cons as nl ν B b bid x xs hbB hmin]
      cases p with
      | zero => simp
      | succ q =>
        have hq : q < xs.length := by
          rw [List.length_cons] at hp; omega
        simp only [List.getD_cons_succ]
        rw [ih xs (fun i j => if i = b then ν i (j + 1) else ν i j)
          (by simpa using hlen)
          (fun y hy => hb y (List.mem_cons_of_mem _ hy))
          (List.sorted_cons.mp hsorted).2 q hq]
        rw [List.take_succ_cons, List.count_cons]
        by_cases hc : bid[q]?.getD 0 = b
        · simp [hc]
        · simp [hc, Ne.symm hc]

/-- Claim C5 (amended): with every batch id in range, corruption preserves
the row count; and provided the batch ids are non-decreasing along the rows
(each element's rows contiguous, elements in index order — the layout the
octree batching produces), row `p` of the result is row `p` of `x_start`
mixed with coefficients derived from that row's own element's noise level,
plus that element's sigma times a fresh noise value. -/
theorem forward_corrupt_spec (as : ℚ → ℚ × ℚ) (nl : ℕ → ℚ) (ν : ℕ → ℕ → ℚ)
    (B : ℕ) (bid : List ℕ) (xs : FeatureField)
    (hlen : bid.length = xs.length) (hb : ∀ b ∈ bid, b < B)
    (hsorted : List.Sorted (· ≤ ·) bid) :
    (forward_corrupt as nl ν B bid xs).length = xs.length ∧
    ∀ p, p < xs.length →
      (forward_corrupt as nl ν B bid xs).getD p 0 =
        xs.getD p 0 * (as (nl (bid.getD p 0))).1 +
        (as (nl (bid.getD p 0))).2 *
          ν (bid.getD p 0) ((bid.take p).count (bid.getD p 0)) :=
  ⟨length_forward_corrupt as nl ν B bid xs hlen hb,
    forward_corrupt_getD_sorted as nl B bid xs ν hlen hb hsorted⟩

/-- Concrete collaborators for the corruption witnesses. -/
def asEx : ℚ → ℚ × ℚ := fun l => (l + 1, l)

/-- Concrete per-element noise level for the corruption witnesses. -/
def nlEx : ℕ → ℚ := fun i => (i : ℚ)

/-- Concrete noise stream for the corruption witnesses. -/
def noiseEx : ℕ → ℕ → ℚ := fun i j => (i : ℚ) + (j : ℚ)

/-- Witness for C5 on a sorted three-row batch of two elements, checked at
the last row. -/
theorem forward_corrupt_spec_witness :
    ([0, 1, 1].length = [(1 : ℚ), 2, 3].length ∧
      List.Sorted (· ≤ ·) [0, 1, 1]) ∧
    (forward_corrupt asEx nlEx noiseEx 2 [0, 1, 1] [1, 2, 3]).length =
      [(1 : ℚ), 2, 3].length ∧
    (forward_corrupt asEx nlEx noiseEx 2 [0, 1, 1] [1, 2, 3]).getD 2 0 =
      ([(1 : ℚ), 2, 3]).getD 2 0 * (asEx (nlEx ([0, 1, 1].getD 2 0))).1 +
        (asEx (nlEx ([0, 1, 1].getD 2 0))).2 *
          noiseEx ([0, 1, 1].getD 2 0)
            (([0, 1, 1].take 2).count ([0, 1, 1].getD 2 0)) :=
  ⟨⟨rfl, by decide⟩,
    (forward_corrupt_spec asEx nlEx noiseEx 2 [0, 1, 1] [1, 2, 3] rfl
      (by decide) (by decide)).1,
    (forward_corrupt_spec asEx nlEx noiseEx 2 [0, 1, 1] [1, 2, 3] rfl
      (by decide) (by decide)).2 2 (by decide)⟩

/-- Counterexample to C5 as stated: with non-contiguous rows for element 0
(`batch_id = [0, 1, 0]`) and the corruption made the identity
(`alpha = 1, sigma = 0`), a result whose row order matched `x_start` would
equal `x_start`; the concatenation of the masked blocks instead regroups the
rows to `[10, 30, 20]`. -/
theorem forward_corrupt_order_counterexample :
    forward_corrupt (fun _ => (1, 0)) (fun _ => 0) (fun _ _ => 0) 2 [0, 1, 0]
      [10, 20, 30] = [10, 30, 20] ∧
    [(10 : ℚ), 30, 20] ≠ [10, 20, 30] := by
  constructor
  · norm_num [forward_corrupt, mask_index, List.range_succ, List.filter_cons,
      List.mapIdx_cons]
  · intro h
    simp only [List.cons.injEq] at h
    norm_num at h

/-- The mask block, written positionally: the rows of `xs` at the positions
whose batch id is `i`, in position order. -/
theorem mask_index_eq_filter_positions (bid : List ℕ) (xs : List ℚ) (i : ℕ)
    (h : bid.length = xs.length) :
    mask_index xs bid i =
      ((List.range xs.length).filter (fun p => bid.getD p 0 == i)).map
        (fun p => xs.getD p 0) := by
  induction bid generalizing xs with
  | nil =>
    cases xs with
    | nil => simp [mask_index]
    | cons x xs => simp at h
  | cons b bid ih =>
    cases xs with
    | nil => simp at h
    | cons x xs =>
      have h' : bid.length = xs.length := by simpa using h
      rw [mask_index_cons, List.length_cons, List.range_succ_eq_map,
        List.filter_cons, List.filter_map]
      simp only [List.getD_cons_zero, Function.comp_def, List.getD_cons_succ]
      by_cases hbi : b = i
      · subst hbi
        rw [if_pos rfl, if_pos (by simp), List.map_cons, List.map_map]
        refine congrArg₂ List.cons (by simp) ?_
        rw [ih xs h']
        apply List.map_congr_left
        intro p _
        simp
      · rw [if_neg hbi, if_neg (by simp [hbi]), ih xs h', List.map_map]
        apply List.map_congr_left
        intro p _
        simp

/-- `getD` of a function tabulated over `range B`, below `B`. -/
theorem getD_map_range (f : ℕ → ℚ) (B i : ℕ) (h : i < B) :
    ((List.range B).map f).getD i 0 = f i := by
  rw [List.getD_eq_getElem _ _ (by simpa using h), List.getElem_map,
    List.getElem_range]

/-- Claim C6: with every id in range and a layout-preserving denoiser,
`training_loss` returns exactly `batch_size` entries (one per batch element,
not a single averaged scalar); when each element owns at least one row,
entry `i` is the mean over element `i`'s row positions of the squared error
between the prediction on the corrupted field and `x_start`, hence
non-negative. -/
theorem training_loss_spec (M : DiffusionModel) (times : ℕ → ℚ)
    (ν : ℕ → ℕ → ℚ) (B : ℕ) (bid : List ℕ) (xs : FeatureField)
    (hlen : bid.length = xs.length) (hb : ∀ b ∈ bid, b < B)
    (hpred : ∀ f : FeatureField,
      (M.denoise_fn f (fun j => M.log_snr (times j))).length = f.length)
    (hmem : ∀ i, i < B → i ∈ bid) :
    (training_loss M times ν B bid xs).length = B ∧
    ∀ i, i < B →
      0 < ((List.range xs.length).filter (fun p => bid.getD p 0 == i)).length ∧
      (training_loss M times ν B bid xs).getD i 0 =
        (((List.range xs.length).filter (fun p => bid.getD p 0 == i)).map
          (fun p =>
            ((M.denoise_fn
                (forward_corrupt M.alpha_sigma (fun j => M.log_snr (times j))
                  ν B bid xs)
                (fun j => M.log_snr (times j))).getD p 0 - xs.getD p 0) ^ 2)).sum /
        ((List.range xs.length).filter (fun p => bid.getD p 0 == i)).length ∧
      0 ≤ (training_loss M times ν B bid xs).getD i 0 := by
  have hxt : (forward_corrupt M.alpha_sigma (fun j => M.log_snr (times j))
      ν B bid xs).length = xs.length :=
    length_forward_corrupt _ _ _ _ _ _ hlen hb
  have hpl : (M.denoise_fn
      (forward_corrupt M.alpha_sigma (fun j => M.log_snr (times j)) ν B bid xs)
      (fun j => M.log_snr (times j))).length = xs.length := by
    rw [hpred, hxt]
  have hsdf : (List.zipWith (fun p x => (p - x) ^ 2)
      (M.denoise_fn
        (forward_corrupt M.alpha_sigma (fun j => M.log_snr (times j)) ν B bid xs)
        (fun j => M.log_snr (times j))) xs).length = xs.length := by
    rw [List.length_zipWith, hpl, min_self]
  have hbs : bid.length = (List.zipWith (fun p x => (p - x) ^ 2)
      (M.denoise_fn
        (forward_corrupt M.alpha_sigma (fun j => M.log_snr (times j)) ν B bid xs)
        (fun j => M.log_snr (times j))) xs).length := by
    rw [hsdf, hlen]
  constructor
  · simp [training_loss]
  intro i hi
  have hfl : ((List.range xs.length).filter
      (fun p => bid.getD p 0 == i)).length = bid.count i := by
    have hmx := mask_index_eq_filter_positions bid xs i hlen
    have := congrArg List.length hmx
    rw [length_mask_index bid xs i hlen, List.length_map] at this
    omega
  have hrows : 0 < ((List.range xs.length).filter
      (fun p => bid.getD p 0 == i)).length := by
    rw [hfl]
    exact List.count_pos_iff.mpr (hmem i hi)
  have hgd : (training_loss M times ν B bid xs).getD i 0 =
      list_mean (mask_index
        (List.zipWith (fun p x => (p - x) ^ 2)
          (M.denoise_fn
            (forward_corrupt M.alpha_sigma (fun j => M.log_snr (times j))
              ν B bid xs)
            (fun j => M.log_snr (times j))) xs) bid i) := by
    simp only [training_loss]
    rw [getD_map_range _ B i hi]
  have hmask : mask_index
      (List.zipWith (fun p x => (p - x) ^ 2)
        (M.denoise_fn
          (forward_corrupt M.alpha_sigma (fun j => M.log_snr (times j))
            ν B bid xs)
          (fun j => M.log_snr (times j))) xs) bid i =
      ((List.range xs.length).filter (fun p => bid.getD p 0 == i)).map
        (fun p =>
          ((M.denoise_fn
              (forward_corrupt M.alpha_sigma (fun j => M.log_snr (times j))
                ν B bid xs)
              (fun j => M.log_snr (times j))).getD p 0 - xs.getD p 0) ^ 2) := by
    rw [mask_index_eq_filter_positions bid _ i hbs, hsdf]
    apply List.map_congr_left
    intro p hp
    have hpx : p < xs.length := by
      have := List.mem_filter.mp hp
      simpa using List.mem_range.mp this.1
    rw [getD_zipWith _ _ _ _ (by omega) hpx]
  have hform : (training_loss M times ν B bid xs).getD i 0 =
      (((List.range xs.length).filter (fun p => bid.getD p 0 == i)).map
        (fun p =>
          ((M.denoise_fn
              (forward_corrupt M.alpha_sigma (fun j => M.log_snr (times j))
                ν B bid xs)
              (fun j => M.log_snr (times j))).getD p 0 - xs.getD p 0) ^ 2)).sum /
      ((List.range xs.length).filter (fun p => bid.getD p 0 == i)).length := by
    rw [hgd, hmask, list_mean, List.length_map]
  refine ⟨hrows, hform, ?_⟩
  rw [hform]
  apply div_nonneg
  · apply List.sum_nonneg
    intro y hy
    obtain ⟨p, _, rfl⟩ := List.mem_map.mp hy
    positivity
  · positivity

/-- Witness for C6: one batch element owning the single row of a one-row
field, with the echo denoiser. -/
theorem training_loss_spec_witness :
    ([0].length = [(4 : ℚ)].length) ∧
    (training_loss Mex (fun i => (i : ℚ)) noiseEx 1 [0] [4]).length = 1 ∧
    0 < ((List.range [(4 : ℚ)].length).filter
      (fun p => [0].getD p 0 == 0)).length ∧
    (training_loss Mex (fun i => (i : ℚ)) noiseEx 1 [0] [4]).getD 0 0 =
      (((List.range [(4 : ℚ)].length).filter
        (fun p => [0].getD p 0 == 0)).map
        (fun p =>
          ((Mex.denoise_fn
              (forward_corrupt Mex.alpha_sigma
                (fun j => Mex.log_snr ((j : ℕ) : ℚ)) noiseEx 1 [0] [4])
              (fun j => Mex.log_snr ((j : ℕ) : ℚ))).getD p 0 -
            [(4 : ℚ)].getD p 0) ^ 2)).sum /
      ((List.range [(4 : ℚ)].length).filter
        (fun p => [0].getD p 0 == 0)).length ∧
    0 ≤ (training_loss Mex (fun i => (i : ℚ)) noiseEx 1 [0] [4]).getD 0 0 :=
  ⟨rfl,
    (training_loss_spec Mex (fun i => (i : ℚ)) noiseEx 1 [0] [4] rfl
      (by decide) (fun f => rfl) (by decide)).1,
    ((training_loss_spec Mex (fun i => (i : ℚ)) noiseEx 1 [0] [4] rfl
      (by decide) (fun f => rfl) (by decide)).2 0 (by decide)).1,
    ((training_loss_spec Mex (fun i => (i : ℚ)) noiseEx 1 [0] [4] rfl
      (by decide) (fun f => rfl) (by decide)).2 0 (by decide)).2.1,
    ((training_loss_spec Mex (fun i => (i : ℚ)) noiseEx 1 [0] [4] rfl
      (by decide) (fun f => rfl) (by decide)).2 0 (by decide)).2.2⟩
